import Mathlib

/-!
# Verification of the `lazysort` lazy quicksort iterator

A shallow embedding of `src/lib.rs` of the `lazysort` crate.  The crate
provides `LazySortIterator`: a buffer of elements (`Vec<T>`, modelled as
`List α`), an explicit stack of pending `(lower, upper)` index ranges
(`Vec<(usize, usize)>`, modelled as `List (Nat × Nat)` with the head as the
top of the stack, matching `Vec::push`/`Vec::pop` LIFO order), and a
comparator.  Each call to `next` pops a work item and runs `qsort` on it,
which partitions ranges until it can remove and emit the element at the
buffer's tail.

The Rust comparator field `by : F` is immutable for all three public entry
points (`Ord::cmp`, `partial_cmp_first` / `partial_cmp_last`, and a
caller-supplied `Fn` closure), so it is modelled as an explicit function
parameter `f : α → α → Ordering` threaded through the operations.

Rust panics (the three `assert!`s in `partition`, the `assert!` in `qsort`
together with `pop().expect(..)`, and the index-out-of-bounds panics of
`Vec::swap` / indexing) are modelled by returning `Except Panic`.  The
unbounded recursion of `qsort` is modelled with an explicit fuel argument
(`qsortF`); `qsort` instantiates the fuel at `lower - upper + 1`, and the
theorem for the termination claim proves every fuel above `lower - upper`
gives the same, fuel-error-free result, i.e. the Rust recursion terminates.
-/

/-- The panic conditions of the Rust code: the three `assert!`s of
`partition`, an index out of bounds in `partition`'s swaps/indexing, the
tail `assert!`/`pop().expect` of `qsort`, and exhaustion of the explicit
fuel that models `qsort`'s unbounded recursion. -/
inductive Panic
  | lowerLtUpper
  | pivotGtLower
  | pivotLtUpper
  | indexOOB
  | tailAssert
  | outOfFuel
deriving DecidableEq, Repr

/-- `fn pivot(lower: usize, upper: usize) -> usize { upper + ((lower - upper) / 2) }`.
Rust `usize` subtraction is modelled by `Nat` subtraction; at every call site
`lower ≥ upper` so no underflow occurs. -/
def pivot (lower upper : Nat) : Nat :=
  upper + ((lower - upper) / 2)

/-- Element access `data[k]`: modelled totally via `getD`; all accesses in
reachable code are proven in bounds, where `getD` agrees with `Vec` indexing. -/
def nth [Inhabited α] (l : List α) (k : Nat) : α :=
  l.getD k default

/-- `Vec::swap(i, j)`, modelled on lists.  Out-of-range `set` is the
identity; call sites guard in-bounds indices explicitly. -/
def lswap [Inhabited α] (l : List α) (i j : Nat) : List α :=
  (l.set i (nth l j)).set j (nth l i)

/-- The `while i < lasti { ... }` loop of `partition`.  `i` increases by one
each iteration, so the loop runs exactly `lasti - i` times; the first `Nat`
argument is that iteration count, making the recursion structural.  The
`i < lasti` guard is kept so the function agrees with the loop for any
sufficient count. -/
def partitionLoop [Inhabited α] (f : α → α → Ordering) (lasti : Nat) :
    Nat → List α → Nat → Nat → List α × Nat
  | 0, data, _, nextp => (data, nextp)
  | n + 1, data, i, nextp =>
    if i < lasti then
      match f (nth data i) (nth data lasti) with
      | .gt => partitionLoop f lasti n
          (if i ≠ nextp then lswap data i nextp else data) (i + 1) (nextp + 1)
      | .eq => partitionLoop f lasti n data (i + 1) nextp
      | .lt => partitionLoop f lasti n data (i + 1) nextp
    else (data, nextp)

/-- `LazySortIterator::partition`.  Returns the final pivot position
(`nextp`, the Rust return value) together with the updated buffer (the Rust
function mutates `self.data` in place).  The three leading checks model the
three `assert!`s; the `lower < data.length` check models the
index-out-of-bounds panic of `self.data.swap(lasti, p)` and the body's
indexing (all indices touched by the body are `≤ lower`, so in the
non-trivial branch the body panics exactly when `lower` is out of bounds). -/
def partition [Inhabited α] (f : α → α → Ordering) (data : List α)
    (lower upper p : Nat) : Except Panic (Nat × List α) :=
  if ¬ lower ≥ upper then .error .lowerLtUpper
  else if ¬ p ≤ lower then .error .pivotGtLower
  else if ¬ p ≥ upper then .error .pivotLtUpper
  else
    let length := lower - upper
    if length = 0 then .ok (p, data)
    else if lower < data.length then
      let lasti := lower
      let data1 := lswap data lasti p
      let r := partitionLoop f lasti (lasti - upper) data1 upper upper
      .ok (r.2, lswap r.1 r.2 lasti)
    else .error .indexOOB

/-- `LazySortIterator::qsort`, with fuel making the recursion structural.
Returns the emitted element, the updated buffer and the updated work stack
(Rust mutates `self.data` and pushes onto `self.work`).  In the base case,
`assert!(lower == self.data.len() - 1)` together with
`self.data.pop().expect("Non empty vector")` panics exactly when the buffer
is empty or `lower` is not the final index, modelled by the `tailAssert`
check (`data.getLastD default` / `data.dropLast` are `Vec::pop` on a
non-empty buffer). -/
def qsortF [Inhabited α] (f : α → α → Ordering) :
    Nat → List α → List (Nat × Nat) → Nat → Nat →
    Except Panic (α × List α × List (Nat × Nat))
  | 0, _, _, _, _ => .error .outOfFuel
  | fuel + 1, data, work, lower, upper =>
    if lower = upper then
      if data.length ≠ 0 ∧ lower = data.length - 1 then
        .ok (data.getLastD default, data.dropLast, work)
      else .error .tailAssert
    else
      match partition f data lower upper (pivot lower upper) with
      | .error e => .error e
      | .ok (p, data2) =>
        if p = lower then
          qsortF f fuel data2 ((p - 1, upper) :: work) lower p
        else
          qsortF f fuel data2 ((p, upper) :: work) lower (p + 1)

/-- `qsort` with the canonical sufficient fuel `lower - upper + 1`:
the termination theorem proves every fuel above `lower - upper` yields this
same result, so this is the value of the (terminating) Rust recursion. -/
def qsort [Inhabited α] (f : α → α → Ordering) (data : List α)
    (work : List (Nat × Nat)) (lower upper : Nat) :
    Except Panic (α × List α × List (Nat × Nat)) :=
  qsortF f (lower - upper + 1) data work lower upper

/-- The `LazySortIterator` state: `data` is the element buffer, `work` the
stack of pending inclusive ranges `(lower, upper)`, head = top of stack. -/
structure LazySortIterator (α : Type) where
  data : List α
  work : List (Nat × Nat)
deriving Repr, DecidableEq

/-- `LazySortIterator::new`: seeds the work stack with the single full-range
item `(len - 1, 0)`, or leaves it empty for an empty input. -/
def LazySortIterator.new (data : List α) : LazySortIterator α :=
  { data := data
    work := if data.length = 0 then [] else [(data.length - 1, 0)] }

/-- `Iterator::next`: pop a work item and run `qsort` on it; `none` inside
`.ok` models Rust's `None` (exhaustion), the `.error` layer models panics. -/
def LazySortIterator.next [Inhabited α] (f : α → α → Ordering)
    (s : LazySortIterator α) : Except Panic (Option α × LazySortIterator α) :=
  match s.work with
  | [] => .ok (none, s)
  | (lower, upper) :: rest =>
    match qsort f s.data rest lower upper with
    | .error e => .error e
    | .ok (x, data', work') => .ok (some x, ⟨data', work'⟩)

/-- `Iterator::size_hint`: the exact pair `(len, Some(len))`. -/
def sizeHint (s : LazySortIterator α) : Nat × Option Nat :=
  (s.data.length, some s.data.length)

/-- Pull at most `k` elements from the iterator, returning the emitted
elements in order together with the final state; stops early at exhaustion. -/
def pullN [Inhabited α] (f : α → α → Ordering) :
    Nat → LazySortIterator α → Except Panic (List α × LazySortIterator α)
  | 0, s => .ok ([], s)
  | k + 1, s =>
    match s.next f with
    | .error e => .error e
    | .ok (none, s') => .ok ([], s')
    | .ok (some x, s') =>
      match pullN f k s' with
      | .error e => .error e
      | .ok (rest, t) => .ok (x :: rest, t)

/-- Pull until exhaustion, with fuel (one unit per `next` call; emission
count is bounded by the buffer length, so `data.length + 1` units suffice). -/
def drainFuel [Inhabited α] (f : α → α → Ordering) :
    Nat → LazySortIterator α → Except Panic (List α)
  | 0, _ => .error .outOfFuel
  | n + 1, s =>
    match s.next f with
    | .error e => .error e
    | .ok (none, _) => .ok []
    | .ok (some x, s') =>
      match drainFuel f n s' with
      | .error e => .error e
      | .ok rest => .ok (x :: rest)

/-- Fully drain the iterator: the list of all emitted elements in order. -/
def drain [Inhabited α] (f : α → α → Ordering) (s : LazySortIterator α) :
    Except Panic (List α) :=
  drainFuel f (s.data.length + 1) s

/-- The `f64`-style partial order used by `SortedPartial`: `none` plays the
role of NaN (`partial_cmp` returns `None` whenever either side is NaN),
`some` values compare by the underlying total order. -/
def fcmp : Option Int → Option Int → Option Ordering
  | some a, some b => some (compare a b)
  | _, _ => none

/-- `fn partial_cmp_first<T: PartialOrd>(a: &T, b: &T) -> Ordering`:
yields the underlying order and `Less` on incomparable pairs. -/
def pcmpFirst (a b : Option Int) : Ordering :=
  match fcmp a b with
  | some order => order
  | none => .lt

/-- `fn partial_cmp_last<T: PartialOrd>(a: &T, b: &T) -> Ordering`:
yields the underlying order and `Greater` on incomparable pairs. -/
def pcmpLast (a b : Option Int) : Ordering :=
  match fcmp a b with
  | some order => order
  | none => .gt

/-- The comparator chosen by `sorted_partial(self, first)`. -/
def sortedPCmp (first : Bool) : Option Int → Option Int → Ordering :=
  if first then pcmpFirst else pcmpLast

/-- `sorted_partial(input, first)` followed by a full drain. -/
def sortedPDrain (first : Bool) (l : List (Option Int)) :
    Except Panic (List (Option Int)) :=
  drain (sortedPCmp first) (LazySortIterator.new l)

/-- The work stack, read from the top, tiles the index interval `[0, b)`
into contiguous inclusive ranges: the top item is `(b - 1, u)`, the next
tiles `[0, u)`, and the stack is empty exactly when `b = 0`. -/
def tiles : Nat → List (Nat × Nat) → Prop
  | b, [] => b = 0
  | b, (lower, upper) :: rest => lower + 1 = b ∧ upper ≤ lower ∧ tiles upper rest

/-- Every element of the buffer at an index `≥ b` is `≤` every element at an
index `< b`: the part of the buffer at and above `b` (emitted earlier) is
bounded by the part below `b` (emitted later). -/
def Above [LinearOrder α] [Inhabited α] (data : List α) (b : Nat) : Prop :=
  ∀ i j, i < b → b ≤ j → j < data.length → nth data j ≤ nth data i

/-- Structural engine invariant: the work stack tiles the buffer.  It holds
for any comparator. -/
def StructInv (s : LazySortIterator α) : Prop :=
  tiles s.data.length s.work

/-- Ordering engine invariant (for the total-order comparator `compare`):
at every stack boundary, the tail side of the buffer is bounded by the
front side. -/
def OrderInv [LinearOrder α] [Inhabited α] (s : LazySortIterator α) : Prop :=
  ∀ it ∈ s.work, Above s.data it.2

/-- States reachable from `s` by successful emitting `next` calls. -/
inductive Reach [Inhabited α] (f : α → α → Ordering) :
    LazySortIterator α → LazySortIterator α → Prop
  | refl (s) : Reach f s s
  | step {s t u : LazySortIterator α} {x : α} :
      Reach f s t → t.next f = .ok (some x, u) → Reach f s u

theorem length_lswap [Inhabited α] (l : List α) (i j : Nat) :
    (lswap l i j).length = l.length := by
  simp [lswap]

theorem nth_lswap_fst [Inhabited α] (l : List α) (i j : Nat)
    (hi : i < l.length) (hj : j < l.length) :
    nth (lswap l i j) i = nth l j := by
  rcases eq_or_ne i j with rfl | hne
  · simp [lswap, nth, List.getElem?_set_self, hi, List.getElem?_eq_getElem, hj]
  · simp [lswap, nth, List.getElem?_set_ne (Ne.symm hne), List.getElem?_set_self, hi,
      List.getElem?_eq_getElem, hj]

theorem nth_lswap_snd [Inhabited α] (l : List α) (i j : Nat)
    (hi : i < l.length) (hj : j < l.length) :
    nth (lswap l i j) j = nth l i := by
  simp [lswap, nth, List.getElem?_set_self, hi, hj, List.getElem?_eq_getElem]

theorem nth_lswap_ne [Inhabited α] (l : List α) (i j k : Nat)
    (h1 : k ≠ i) (h2 : k ≠ j) :
    nth (lswap l i j) k = nth l k := by
  simp [lswap, nth, List.getElem?_set_ne (Ne.symm h2), List.getElem?_set_ne (Ne.symm h1)]

theorem getD_cons_set_perm [Inhabited α] :
    ∀ (t : List α) (m : Nat) (x : α), m < t.length →
      List.Perm (t.getD m default :: t.set m x) (x :: t)
  | y :: t', 0, x, _ => by
    simpa using List.Perm.swap x y t'
  | y :: t', m + 1, x, h => by
    have ih := getD_cons_set_perm t' m x (by simpa using h)
    have h1 : List.Perm (t'.getD m default :: y :: t'.set m x)
        (y :: t'.getD m default :: t'.set m x) := List.Perm.swap _ _ _
    have h2 : List.Perm (y :: t'.getD m default :: t'.set m x) (y :: x :: t') :=
      ih.cons y
    have h3 : List.Perm (y :: x :: t') (x :: y :: t') := List.Perm.swap _ _ _
    simpa using (h1.trans h2).trans h3

theorem lswap_perm [Inhabited α] :
    ∀ (l : List α) (i j : Nat), i < l.length → j < l.length →
      List.Perm (lswap l i j) l
  | x :: t, 0, 0, _, _ => by simp [lswap, nth]
  | x :: t, 0, m + 1, _, hj => by
    have hm : m < t.length := by simpa using hj
    have := getD_cons_set_perm t m x hm
    simpa [lswap, nth, List.getD_eq_getElem?_getD, List.getElem?_eq_getElem, hm] using this
  | x :: t, k + 1, 0, hi, _ => by
    have hk : k < t.length := by simpa using hi
    have := getD_cons_set_perm t k x hk
    simpa [lswap, nth, List.getD_eq_getElem?_getD, List.getElem?_eq_getElem, hk] using this
  | x :: t, k + 1, m + 1, hi, hj => by
    have hk : k < t.length := by simpa using hi
    have hm : m < t.length := by simpa using hj
    have ih := lswap_perm t k m hk hm
    simpa [lswap, nth] using ih.cons x

/-- Full specification of the partition loop: starting from `i = nextp`
regions `[u, nextp)` (strictly greater than the pivot value, which sits at
`lasti`) and `[nextp, i)` (not greater), the loop extends the two regions to
cover `[u, lasti)`, only permutes the buffer, and touches nothing outside
`[u, lasti)`. -/
theorem partitionLoop_spec [Inhabited α] (f : α → α → Ordering) (lasti u : Nat) :
    ∀ (n : Nat) (data : List α) (i nextp : Nat),
      lasti ≤ i + n →
      u ≤ nextp → nextp ≤ i → i ≤ lasti → lasti < data.length →
      (∀ k, u ≤ k → k < nextp → f (nth data k) (nth data lasti) = .gt) →
      (∀ k, nextp ≤ k → k < i → f (nth data k) (nth data lasti) ≠ .gt) →
      ∃ data' nextp',
        partitionLoop f lasti n data i nextp = (data', nextp') ∧
        data'.length = data.length ∧
        nextp ≤ nextp' ∧ nextp' ≤ lasti ∧
        (∀ k, (k < u ∨ lasti ≤ k) → nth data' k = nth data k) ∧
        List.Perm data' data ∧
        (∀ k, u ≤ k → k < nextp' → f (nth data' k) (nth data' lasti) = .gt) ∧
        (∀ k, nextp' ≤ k → k < lasti → f (nth data' k) (nth data' lasti) ≠ .gt) := by
  intro n
  induction n with
  | zero =>
    intro data i nextp hfuel hun hni hil hlen hA hB
    have hie : i = lasti := by omega
    refine ⟨data, nextp, rfl, rfl, le_refl _, by omega, fun k _ => rfl,
      List.Perm.refl _, hA, ?_⟩
    intro k hk1 hk2
    exact hB k hk1 (by omega)
  | succ n IH =>
    intro data i nextp hfuel hun hni hil hlen hA hB
    by_cases hilt : i < lasti
    · have hnlt : nextp < lasti := by omega
      rcases hcmp : f (nth data i) (nth data lasti) with _ | _ | _
      · -- Less: element stays put, loop advances i
        have hB' : ∀ k, nextp ≤ k → k < i + 1 → f (nth data k) (nth data lasti) ≠ .gt := by
          intro k hk1 hk2
          rcases Nat.lt_or_ge k i with hk | hk
          · exact hB k hk1 hk
          · have : k = i := by omega
            subst this
            rw [hcmp]; simp
        obtain ⟨data', nextp', heq, hl, h1, h2, hout, hperm, hA', hB''⟩ :=
          IH data (i + 1) nextp (by omega) hun (by omega) (by omega) hlen hA hB'
        refine ⟨data', nextp', ?_, hl, h1, h2, hout, hperm, hA', hB''⟩
        simp only [partitionLoop, if_pos hilt, hcmp]
        exact heq
      · -- Equal: same as Less
        have hB' : ∀ k, nextp ≤ k → k < i + 1 → f (nth data k) (nth data lasti) ≠ .gt := by
          intro k hk1 hk2
          rcases Nat.lt_or_ge k i with hk | hk
          · exact hB k hk1 hk
          · have : k = i := by omega
            subst this
            rw [hcmp]; simp
        obtain ⟨data', nextp', heq, hl, h1, h2, hout, hperm, hA', hB''⟩ :=
          IH data (i + 1) nextp (by omega) hun (by omega) (by omega) hlen hA hB'
        refine ⟨data', nextp', ?_, hl, h1, h2, hout, hperm, hA', hB''⟩
        simp only [partitionLoop, if_pos hilt, hcmp]
        exact heq
      · -- Greater: swap into the front block, advance both i and nextp
        set mid := if i ≠ nextp then lswap data i nextp else data with hmid
        have hmlen : mid.length = data.length := by
          rw [hmid]; split <;> simp [length_lswap]
        have hmperm : List.Perm mid data := by
          rw [hmid]; split
          · exact lswap_perm data i nextp (by omega) (by omega)
          · exact List.Perm.refl _
        have hmid_lasti : nth mid lasti = nth data lasti := by
          rw [hmid]; split
          · exact nth_lswap_ne data i nextp lasti (by omega) (by omega)
          · rfl
        have hmid_out : ∀ k, (k < u ∨ lasti ≤ k) → nth mid k = nth data k := by
          intro k hk
          rw [hmid]; split
          · exact nth_lswap_ne data i nextp k (by omega) (by omega)
          · rfl
        have hA' : ∀ k, u ≤ k → k < nextp + 1 → f (nth mid k) (nth mid lasti) = .gt := by
          intro k hk1 hk2
          rw [hmid_lasti]
          rcases Nat.lt_or_ge k nextp with hk | hk
          · have : nth mid k = nth data k := by
              rw [hmid]; split
              · exact nth_lswap_ne data i nextp k (by omega) (by omega)
              · rfl
            rw [this]
            exact hA k hk1 hk
          · have hkn : k = nextp := by omega
            subst hkn
            have : nth mid k = nth data i := by
              rw [hmid]; split
              · exact nth_lswap_snd data i k (by omega) (by omega)
              · rename_i h
                simp only [ne_eq, not_not] at h
                rw [h]
            rw [this]
            exact hcmp
        have hB' : ∀ k, nextp + 1 ≤ k → k < i + 1 →
            f (nth mid k) (nth mid lasti) ≠ .gt := by
          intro k hk1 hk2
          rw [hmid_lasti]
          rcases Nat.lt_or_ge k i with hk | hk
          · have : nth mid k = nth data k := by
              rw [hmid]; split
              · exact nth_lswap_ne data i nextp k (by omega) (by omega)
              · rfl
            rw [this]
            exact hB k (by omega) hk
          · have hki : k = i := by omega
            subst hki
            have hin : k ≠ nextp := by omega
            have : nth mid k = nth data nextp := by
              rw [hmid, if_pos hin]
              exact nth_lswap_fst data k nextp (by omega) (by omega)
            rw [this]
            exact hB nextp (le_refl _) (by omega)
        obtain ⟨data', nextp', heq, hl, h1, h2, hout, hperm, hA'', hB''⟩ :=
          IH mid (i + 1) (nextp + 1) (by omega) (by omega) (by omega) (by omega)
            (by omega) hA' hB'
        refine ⟨data', nextp', ?_, by omega, by omega, h2, ?_, hperm.trans hmperm, hA'', hB''⟩
        · simp only [partitionLoop, if_pos hilt, hcmp]
          rw [← hmid]
          exact heq
        · intro k hk
          rw [hout k hk, hmid_out k hk]
    · -- loop guard fails: i = lasti, loop exits
      have hie : i = lasti := by omega
      refine ⟨data, nextp, ?_, rfl, le_refl _, by omega, fun k _ => rfl,
        List.Perm.refl _, hA, ?_⟩
      · simp only [partitionLoop, if_neg hilt]
      · intro k hk1 hk2
        exact hB k hk1 (by omega)

/-- Full specification of `partition` under the in-bounds preconditions:
it succeeds, returns a final pivot position `q ∈ [upper, lower]`, places the
original pivot value at `q`, makes `[upper, q)` compare greater than the
pivot value and `(q, lower]` compare not-greater, permutes the buffer and
leaves indices outside `[upper, lower]` unchanged. -/
theorem partition_spec [Inhabited α] (f : α → α → Ordering) (data : List α)
    (lower upper p : Nat)
    (h1 : upper ≤ lower) (h2 : p ≤ lower) (h3 : upper ≤ p)
    (h4 : lower < data.length) :
    ∃ q data',
      partition f data lower upper p = .ok (q, data') ∧
      upper ≤ q ∧ q ≤ lower ∧
      data'.length = data.length ∧
      List.Perm data' data ∧
      (∀ k, (k < upper ∨ lower < k) → nth data' k = nth data k) ∧
      nth data' q = nth data p ∧
      (∀ k, upper ≤ k → k < q → f (nth data' k) (nth data p) = .gt) ∧
      (∀ k, q < k → k ≤ lower → f (nth data' k) (nth data p) ≠ .gt) := by
  by_cases h0 : lower - upper = 0
  · have hle : lower = upper := by omega
    have hpu : p = upper := by omega
    refine ⟨p, data, ?_, by omega, by omega, rfl, List.Perm.refl _,
      fun k _ => rfl, rfl, ?_, ?_⟩
    · simp only [partition, if_neg (by omega : ¬¬lower ≥ upper),
        if_neg (by omega : ¬¬p ≤ lower), if_neg (by omega : ¬¬p ≥ upper)]
      simp [h0]
    · intro k hk1 hk2; omega
    · intro k hk1 hk2
      omega
  · have hlt : upper < lower := by omega
    have hplen : p < data.length := by omega
    set data1 := lswap data lower p with hdata1
    have hlen1 : data1.length = data.length := length_lswap data lower p
    obtain ⟨data2, q, heq, hl2, hq1, hq2, hout, hperm, hA, hB⟩ :=
      partitionLoop_spec f lower upper (lower - upper) data1 upper upper
        (by omega) (le_refl _) (le_refl _) (by omega) (by omega)
        (by intro k hk1 hk2; omega) (by intro k hk1 hk2; omega)
    have hpiv1 : nth data1 lower = nth data p := nth_lswap_fst data lower p h4 hplen
    have hpiv2 : nth data2 lower = nth data p := by
      rw [hout lower (Or.inr (le_refl _)), hpiv1]
    have hqlen : q < data2.length := by omega
    have hllen2 : lower < data2.length := by omega
    refine ⟨q, lswap data2 q lower, ?_, by omega, by omega, ?_, ?_, ?_, ?_, ?_, ?_⟩
    · simp only [partition, if_neg (by omega : ¬¬lower ≥ upper),
        if_neg (by omega : ¬¬p ≤ lower), if_neg (by omega : ¬¬p ≥ upper)]
      simp only [if_neg h0, if_pos h4]
      rw [← hdata1, heq]
    · rw [length_lswap, hl2, hlen1]
    · exact ((lswap_perm data2 q lower hqlen hllen2).trans hperm).trans
        (lswap_perm data lower p h4 hplen)
    · intro k hk
      have hkq : k ≠ q := by omega
      have hkl : k ≠ lower := by omega
      rw [nth_lswap_ne data2 q lower k hkq hkl, hout k (by omega)]
      exact nth_lswap_ne data lower p k (by omega) (by omega)
    · rw [nth_lswap_fst data2 q lower hqlen hllen2, hpiv2]
    · intro k hk1 hk2
      have hkq : k ≠ q := by omega
      have hkl : k ≠ lower := by omega
      rw [nth_lswap_ne data2 q lower k hkq hkl, ← hpiv2]
      exact hA k hk1 hk2
    · intro k hk1 hk2
      rcases Nat.lt_or_ge k lower with hk | hk
      · have hkq : k ≠ q := by omega
        have hkl : k ≠ lower := by omega
        rw [nth_lswap_ne data2 q lower k hkq hkl, ← hpiv2]
        exact hB k (by omega) hk
      · have hkl : k = lower := by omega
        subst hkl
        rw [nth_lswap_snd data2 q k hqlen hllen2, ← hpiv2]
        exact hB q (le_refl _) (by omega)

/-- Inversion: a successful `partition` call had its assert conditions
satisfied and returns a pivot position inside `[upper, lower]`. -/
theorem partition_ok_inv [Inhabited α] (f : α → α → Ordering) (data : List α)
    (lower upper p q : Nat) (data' : List α)
    (h : partition f data lower upper p = .ok (q, data')) :
    upper ≤ lower ∧ upper ≤ q ∧ q ≤ lower ∧ data'.length = data.length := by
  by_cases h1 : lower ≥ upper
  case neg => simp [partition, h1] at h
  by_cases h2 : p ≤ lower
  case neg => simp [partition, h1, h2] at h
  by_cases h3 : p ≥ upper
  case neg => simp [partition, h1, h2, h3] at h
  by_cases h0 : lower - upper = 0
  · simp only [partition, if_neg (by omega : ¬¬lower ≥ upper),
      if_neg (by omega : ¬¬p ≤ lower), if_neg (by omega : ¬¬p ≥ upper),
      if_pos h0] at h
    obtain ⟨rfl, rfl⟩ : p = q ∧ data = data' := by
      constructor <;> [exact congrArg Prod.fst (Except.ok.inj h);
        exact congrArg Prod.snd (Except.ok.inj h)]
    exact ⟨h1, by omega, by omega, rfl⟩
  · by_cases h4 : lower < data.length
    · obtain ⟨q0, data0, heq, hq1, hq2, hlen, _⟩ :=
        partition_spec f data lower upper p (by omega) h2 h3 h4
      rw [heq] at h
      obtain ⟨rfl, rfl⟩ : q0 = q ∧ data0 = data' := by
        constructor <;> [exact congrArg Prod.fst (Except.ok.inj h);
          exact congrArg Prod.snd (Except.ok.inj h)]
      exact ⟨h1, hq1, hq2, hlen⟩
    · simp only [partition, if_neg (by omega : ¬¬lower ≥ upper),
        if_neg (by omega : ¬¬p ≤ lower), if_neg (by omega : ¬¬p ≥ upper),
        if_neg h0, if_neg h4] at h
      exact Except.noConfusion h

/-- A failing `partition` fails on one of its own panic conditions, never on
the fuel marker (it contains no recursion). -/
theorem partition_error_ne_fuel [Inhabited α] (f : α → α → Ordering)
    (data : List α) (lower upper p : Nat)
    (h : partition f data lower upper p = .error .outOfFuel) : False := by
  simp only [partition] at h
  split at h
  · simp at h
  · split at h
    · simp at h
    · split at h
      · simp at h
      · split at h
        · simp at h
        · split at h
          · simp at h
          · simp at h

/-- Fuel irrelevance for `qsortF`: any fuel above `lower - upper` computes
the same result, so the unbounded Rust recursion of `qsort` terminates
within `lower - upper` nested partition steps. -/
theorem qsortF_fuel_eq [Inhabited α] (f : α → α → Ordering) :
    ∀ (n m : Nat) (data : List α) (work : List (Nat × Nat)) (lower upper : Nat),
      lower - upper < n → n ≤ m →
      qsortF f m data work lower upper = qsortF f n data work lower upper := by
  intro n
  induction n with
  | zero => intro m data work lower upper h; omega
  | succ n IH =>
    intro m data work lower upper hn hm
    obtain ⟨m', rfl⟩ : ∃ m', m = m' + 1 := ⟨m - 1, by omega⟩
    by_cases hle : lower = upper
    · simp only [qsortF, if_pos hle]
    · simp only [qsortF, if_neg hle]
      rcases hp : partition f data lower upper (pivot lower upper) with e | ⟨p, data2⟩
      · rfl
      · obtain ⟨h1, h2, h3, _⟩ := partition_ok_inv f data lower upper _ p data2 hp
        by_cases hpl : p = lower
        · simp only [if_pos hpl]
          exact IH m' data2 ((p - 1, upper) :: work) lower p (by omega) (by omega)
        · simp only [if_neg hpl]
          exact IH m' data2 ((p, upper) :: work) lower (p + 1) (by omega) (by omega)

/-- With sufficient fuel, `qsortF` never reports fuel exhaustion: the
modelled recursion reaches a single-index range within `lower - upper`
steps. -/
theorem qsortF_no_fuel [Inhabited α] (f : α → α → Ordering) :
    ∀ (n : Nat) (data : List α) (work : List (Nat × Nat)) (lower upper : Nat),
      lower - upper < n →
      qsortF f n data work lower upper ≠ .error .outOfFuel := by
  intro n
  induction n with
  | zero => intro data work lower upper h; omega
  | succ n IH =>
    intro data work lower upper hn
    by_cases hle : lower = upper
    · simp only [qsortF, if_pos hle]
      split
      · simp
      · simp
    · simp only [qsortF, if_neg hle]
      rcases hp : partition f data lower upper (pivot lower upper) with e | ⟨p, data2⟩
      · intro h
        have : e = .outOfFuel := by
          have := Except.error.inj h
          exact this
        subst this
        exact partition_error_ne_fuel f data lower upper _ hp
      · obtain ⟨h1, h2, h3, _⟩ := partition_ok_inv f data lower upper _ p data2 hp
        by_cases hpl : p = lower
        · simp only [if_pos hpl]
          exact IH data2 ((p - 1, upper) :: work) lower p (by omega)
        · simp only [if_neg hpl]
          exact IH data2 ((p, upper) :: work) lower (p + 1) (by omega)

/-- A successful `qsortF` call removes exactly one element from the buffer:
each `next` call emits exactly one element. -/
theorem qsortF_ok_length [Inhabited α] (f : α → α → Ordering) :
    ∀ (n : Nat) (data : List α) (work : List (Nat × Nat)) (lower upper : Nat)
      (x : α) (data' : List α) (work' : List (Nat × Nat)),
      qsortF f n data work lower upper = .ok (x, data', work') →
      data'.length + 1 = data.length := by
  intro n
  induction n with
  | zero => intro data work lower upper x data' work' h; exact Except.noConfusion h
  | succ n IH =>
    intro data work lower upper x data' work' h
    by_cases hle : lower = upper
    · simp only [qsortF, if_pos hle] at h
      split at h
      · rename_i hcond
        have h2 := Except.ok.inj h
        have h4 : data.dropLast = data' := congrArg (fun y => y.2.1) h2
        have h5 : data.length ≠ 0 := hcond.1
        rw [← h4, List.length_dropLast]
        omega
      · exact Except.noConfusion h
    · simp only [qsortF, if_neg hle] at h
      rcases hp : partition f data lower upper (pivot lower upper) with e | ⟨p, data2⟩
      · rw [hp] at h
        exact Except.noConfusion h
      · rw [hp] at h
        simp only [] at h
        obtain ⟨h1, h2, h3, hlen⟩ := partition_ok_inv f data lower upper _ p data2 hp
        by_cases hpl : p = lower
        · rw [if_pos hpl] at h
          have := IH data2 ((p - 1, upper) :: work) lower p x data' work' h
          omega
        · rw [if_neg hpl] at h
          have := IH data2 ((p, upper) :: work) lower (p + 1) x data' work' h
          omega

theorem nth_eq_getElem [Inhabited α] (l : List α) (k : Nat) (h : k < l.length) :
    nth l k = l[k] := by
  simp [nth, List.getD_eq_getElem?_getD, List.getElem?_eq_getElem h]

theorem dropLast_append_getLastD [Inhabited α] (l : List α) (h : l ≠ []) :
    l.dropLast ++ [l.getLastD default] = l := by
  have h1 : l.getLastD default = l.getLast h := by
    rw [List.getLastD_eq_getLast?, List.getLast?_eq_getLast l h]
    rfl
  rw [h1]
  exact List.dropLast_append_getLast h

theorem getLastD_eq_nth [Inhabited α] (l : List α) (h : l ≠ []) :
    l.getLastD default = nth l (l.length - 1) := by
  have hlen : l.length - 1 < l.length := by
    have := List.length_pos.mpr h
    omega
  rw [List.getLastD_eq_getLast?, List.getLast?_eq_getElem?,
    nth, List.getD_eq_getElem?_getD]

theorem pivot_bounds (lower upper : Nat) (h : upper ≤ lower) :
    upper ≤ pivot lower upper ∧ pivot lower upper ≤ lower := by
  unfold pivot
  have h1 : (lower - upper) / 2 ≤ lower - upper := Nat.div_le_self _ _
  omega

/-- Every item of a tiling stack lies below the boundary and is a valid
(`lower ≥ upper`) range. -/
theorem tiles_mem_bounds : ∀ (b : Nat) (w : List (Nat × Nat)),
    tiles b w → ∀ it ∈ w, it.1 + 1 ≤ b ∧ it.2 ≤ it.1
  | _, [], _, _, hm => absurd hm (List.not_mem_nil _)
  | b, (lower, upper) :: rest, ht, it, hm => by
    obtain ⟨h1, h2, h3⟩ := ht
    rcases List.mem_cons.mp hm with rfl | hm'
    · exact ⟨by omega, h2⟩
    · have := tiles_mem_bounds upper rest h3 it hm'
      omega

/-- `Above` is preserved by any rewriting of the buffer that keeps the
region below `b` pointwise unchanged and only permutes the rest. -/
theorem Above_congr [LinearOrder α] [Inhabited α] (data data' : List α) (b : Nat)
    (hlen : data'.length = data.length)
    (hlow : ∀ k, k < b → nth data' k = nth data k)
    (hperm : List.Perm data' data)
    (ha : Above data b) : Above data' b := by
  have htake : data'.take b = data.take b := by
    apply List.ext_getElem?
    intro n
    rcases Nat.lt_or_ge n b with hn | hn
    · rw [List.getElem?_take_of_lt hn, List.getElem?_take_of_lt hn]
      rcases Nat.lt_or_ge n data.length with hn2 | hn2
      · have e := hlow n hn
        rw [nth_eq_getElem data' n (by omega), nth_eq_getElem data n hn2] at e
        rw [List.getElem?_eq_getElem (l := data') (by omega),
          List.getElem?_eq_getElem hn2, e]
      · rw [List.getElem?_eq_none (l := data') (by omega),
          List.getElem?_eq_none hn2]
    · rw [List.getElem?_eq_none, List.getElem?_eq_none] <;>
        simp [List.length_take] <;> omega
  have hdrop : List.Perm (data'.drop b) (data.drop b) := by
    have e1 : data'.take b ++ data'.drop b = data' := List.take_append_drop b data'
    have e2 : data.take b ++ data.drop b = data := List.take_append_drop b data
    have hp2 : List.Perm (data'.take b ++ data'.drop b) (data.take b ++ data.drop b) := by
      rw [e1, e2]
      exact hperm
    rw [htake] at hp2
    exact (List.perm_append_left_iff _).mp hp2
  intro i j hi hj hjlen
  rw [hlow i hi, nth_eq_getElem data' j hjlen]
  have hmem : data'[j] ∈ data'.drop b := by
    have hj2 : j - b < (data'.drop b).length := by
      simp [List.length_drop]
      omega
    have : (data'.drop b)[j - b] = data'[j] := by
      rw [List.getElem_drop]
      congr 1
      omega
    rw [← this]
    exact List.getElem_mem hj2
  have hmem2 : data'[j] ∈ data.drop b := hdrop.subset hmem
  obtain ⟨n, hn, he⟩ := List.mem_iff_getElem.mp hmem2
  have hnlen : b + n < data.length := by
    simp [List.length_drop] at hn
    omega
  have he2 : data[b + n] = data'[j] := by
    rw [← he, List.getElem_drop]
  rw [← he2, ← nth_eq_getElem data (b + n) hnlen]
  exact ha i (b + n) hi (by omega) hnlen

/-- `Above` survives removal of the final buffer element. -/
theorem Above_dropLast [LinearOrder α] [Inhabited α] (data : List α) (b : Nat)
    (ha : Above data b) : Above data.dropLast b := by
  intro i j hi hj hjlen
  rw [List.length_dropLast] at hjlen
  have hjd : j < data.dropLast.length := by rw [List.length_dropLast]; omega
  have hid : i < data.dropLast.length := by rw [List.length_dropLast]; omega
  rw [nth_eq_getElem _ j hjd, nth_eq_getElem _ i hid,
    List.getElem_dropLast, List.getElem_dropLast,
    ← nth_eq_getElem data j (by omega), ← nth_eq_getElem data i (by omega)]
  exact ha i j hi hj (by omega)

/-- Evaluation of `qsort` on a single-index range at the buffer's tail:
the assert passes and the tail element is popped. -/
theorem qsort_base [Inhabited α] (f : α → α → Ordering) (data : List α)
    (work : List (Nat × Nat)) (lower : Nat) (h1 : lower + 1 = data.length) :
    qsort f data work lower lower =
      .ok (data.getLastD default, data.dropLast, work) := by
  show qsortF f (lower - lower + 1) data work lower lower = _
  rw [Nat.sub_self]
  have h2 : data.length = lower + 1 := h1.symm
  simp [qsortF, h2]

/-- Unfolding of `qsort` by one successful partition step: it continues on
the tail side and pushes the front side, exactly as the Rust recursion. -/
theorem qsort_step [Inhabited α] (f : α → α → Ordering) (data : List α)
    (work : List (Nat × Nat)) (lower upper q : Nat) (data2 : List α)
    (hne : lower ≠ upper)
    (hp : partition f data lower upper (pivot lower upper) = .ok (q, data2)) :
    qsort f data work lower upper =
      if q = lower then qsort f data2 ((q - 1, upper) :: work) lower q
      else qsort f data2 ((q, upper) :: work) lower (q + 1) := by
  obtain ⟨h1, h2, h3, _⟩ := partition_ok_inv f data lower upper _ q data2 hp
  have hlt : upper < lower := by omega
  show qsortF f (lower - upper + 1) data work lower upper = _
  simp only [qsortF, if_neg hne]
  rw [hp]
  simp only []
  by_cases hql : q = lower
  · rw [if_pos hql, if_pos hql]
    rw [qsort]
    exact qsortF_fuel_eq f (lower - q + 1) (lower - upper) data2
      ((q - 1, upper) :: work) lower q (by omega) (by omega)
  · rw [if_neg hql, if_neg hql]
    rw [qsort]
    exact qsortF_fuel_eq f (lower - (q + 1) + 1) (lower - upper) data2
      ((q, upper) :: work) lower (q + 1) (by omega) (by omega)

/-- Structural specification of `qsort`, valid for any comparator: on a
tail range `[upper, lower]` with `lower` the final buffer index and a stack
tiling `[0, upper)`, it succeeds, emits one element, only permutes the
buffer, and restores the tiling for the shortened buffer. -/
theorem qsort_struct [Inhabited α] (f : α → α → Ordering) :
    ∀ (m : Nat) (data : List α) (work : List (Nat × Nat)) (lower upper : Nat),
      lower - upper ≤ m →
      lower + 1 = data.length →
      upper ≤ lower →
      tiles upper work →
      ∃ x data' work',
        qsort f data work lower upper = .ok (x, data', work') ∧
        data'.length + 1 = data.length ∧
        List.Perm (data' ++ [x]) data ∧
        tiles data'.length work' := by
  intro m
  induction m with
  | zero =>
    intro data work lower upper hm h1 h2 ht
    have he : lower = upper := by omega
    subst he
    have hne : data ≠ [] := by
      intro hc
      rw [hc] at h1
      simp at h1
    refine ⟨data.getLastD default, data.dropLast, work,
      qsort_base f data work lower h1, ?_, ?_, ?_⟩
    · rw [List.length_dropLast]; omega
    · rw [dropLast_append_getLastD data hne]
    · rw [List.length_dropLast]
      have : data.length - 1 = lower := by omega
      rw [this]
      exact ht
  | succ m IH =>
    intro data work lower upper hm h1 h2 ht
    by_cases he : lower = upper
    · subst he
      have hne : data ≠ [] := by
        intro hc
        rw [hc] at h1
        simp at h1
      refine ⟨data.getLastD default, data.dropLast, work,
        qsort_base f data work lower h1, ?_, ?_, ?_⟩
      · rw [List.length_dropLast]; omega
      · rw [dropLast_append_getLastD data hne]
      · rw [List.length_dropLast]
        have : data.length - 1 = lower := by omega
        rw [this]
        exact ht
    · have hlt : upper < lower := by omega
      obtain ⟨hp1, hp2⟩ := pivot_bounds lower upper h2
      obtain ⟨q, data2, hpeq, hq1, hq2, hlen2, hperm2, hout2, hpv, hA, hB⟩ :=
        partition_spec f data lower upper (pivot lower upper) h2 hp2 hp1 (by omega)
      rw [qsort_step f data work lower upper q data2 he hpeq]
      by_cases hql : q = lower
      · rw [if_pos hql]
        subst hql
        obtain ⟨x, data', work', heq, hl, hperm, ht'⟩ :=
          IH data2 ((q - 1, upper) :: work) q q (by omega) (by omega) (le_refl _)
            (by exact ⟨by omega, by omega, ht⟩)
        exact ⟨x, data', work', heq, by omega, hperm.trans hperm2, ht'⟩
      · rw [if_neg hql]
        obtain ⟨x, data', work', heq, hl, hperm, ht'⟩ :=
          IH data2 ((q, upper) :: work) lower (q + 1) (by omega) (by omega)
            (by omega) (by exact ⟨rfl, hq1, ht⟩)
        exact ⟨x, data', work', heq, by omega, hperm.trans hperm2, ht'⟩

/-- Base-case of the ordered specification: popping the tail element on a
single-index range emits the minimum of the remaining buffer. -/
theorem qsort_spec_base [LinearOrder α] [Inhabited α] (data : List α)
    (work : List (Nat × Nat)) (lower : Nat)
    (h1 : lower + 1 = data.length)
    (ht : tiles lower work)
    (h4 : ∀ it ∈ work, Above data it.2)
    (h5 : Above data lower) :
    ∃ x data' work',
      qsort compare data work lower lower = .ok (x, data', work') ∧
      data'.length + 1 = data.length ∧
      List.Perm (data' ++ [x]) data ∧
      (∀ y ∈ data', x ≤ y) ∧
      tiles data'.length work' ∧
      (∀ it ∈ work', Above data' it.2) := by
  have hne : data ≠ [] := by
    intro hc
    rw [hc] at h1
    simp at h1
  refine ⟨data.getLastD default, data.dropLast, work,
    qsort_base compare data work lower h1, ?_, ?_, ?_, ?_, ?_⟩
  · rw [List.length_dropLast]; omega
  · rw [dropLast_append_getLastD data hne]
  · intro y hy
    obtain ⟨n, hn, he⟩ := List.mem_iff_getElem.mp hy
    have hn2 : n < data.length - 1 := by
      rw [List.length_dropLast] at hn
      exact hn
    rw [getLastD_eq_nth data hne]
    have hxl : data.length - 1 = lower := by omega
    rw [hxl]
    have hy2 : y = nth data n := by
      rw [nth_eq_getElem data n (by omega), ← List.getElem_dropLast data n hn, he]
    rw [hy2]
    exact h5 n lower (by omega) (le_refl _) (by omega)
  · rw [List.length_dropLast]
    have hxl : data.length - 1 = lower := by omega
    rw [hxl]
    exact ht
  · intro it hm
    exact Above_dropLast data it.2 (h4 it hm)

/-- Full ordered specification of `qsort` with the total-order comparator
`compare`: under the engine invariants it emits the minimum of the buffer
and preserves both invariants. -/
theorem qsort_spec [LinearOrder α] [Inhabited α] :
    ∀ (m : Nat) (data : List α) (work : List (Nat × Nat)) (lower upper : Nat),
      lower - upper ≤ m →
      lower + 1 = data.length →
      upper ≤ lower →
      tiles upper work →
      (∀ it ∈ work, Above data it.2) →
      Above data upper →
      ∃ x data' work',
        qsort compare data work lower upper = .ok (x, data', work') ∧
        data'.length + 1 = data.length ∧
        List.Perm (data' ++ [x]) data ∧
        (∀ y ∈ data', x ≤ y) ∧
        tiles data'.length work' ∧
        (∀ it ∈ work', Above data' it.2) := by
  intro m
  induction m with
  | zero =>
    intro data work lower upper hm h1 h2 ht h4 h5
    have he : lower = upper := by omega
    subst he
    exact qsort_spec_base data work lower h1 ht h4 h5
  | succ m IH =>
    intro data work lower upper hm h1 h2 ht h4 h5
    by_cases he : lower = upper
    · subst he
      exact qsort_spec_base data work lower h1 ht h4 h5
    · have hlt : upper < lower := by omega
      obtain ⟨hp1, hp2⟩ := pivot_bounds lower upper h2
      obtain ⟨q, data2, hpeq, hq1, hq2, hlen2, hperm2, hout2, hpv, hA, hB⟩ :=
        partition_spec compare data lower upper (pivot lower upper) h2 hp2 hp1
          (by omega)
      have hAlt : ∀ k, upper ≤ k → k < q →
          nth data (pivot lower upper) < nth data2 k := by
        intro k hk1 hk2
        exact compare_gt_iff_gt.mp (hA k hk1 hk2)
      have hBle : ∀ k, q < k → k ≤ lower →
          nth data2 k ≤ nth data (pivot lower upper) := by
        intro k hk1 hk2
        exact compare_le_iff_le.mp (hB k hk1 hk2)
      have hwork2 : ∀ it ∈ work, Above data2 it.2 := by
        intro it hm2
        obtain ⟨hb1, hb2⟩ := tiles_mem_bounds upper work ht it hm2
        refine Above_congr data data2 it.2 hlen2 ?_ hperm2 (h4 it hm2)
        intro k hk
        exact hout2 k (Or.inl (by omega))
      have h5' : Above data2 upper := by
        refine Above_congr data data2 upper hlen2 ?_ hperm2 h5
        intro k hk
        exact hout2 k (Or.inl hk)
      rw [qsort_step compare data work lower upper q data2 he hpeq]
      by_cases hql : q = lower
      · rw [if_pos hql]
        subst hql
        have h5'' : Above data2 q := by
          intro i j hi hj hjlen
          have hj2 : j = q := by omega
          subst hj2
          rw [hpv]
          rcases Nat.lt_or_ge i upper with hiu | hiu
          · have := h5' i j hiu (by omega) hjlen
            rw [hpv] at this
            exact this
          · exact le_of_lt (hAlt i hiu hi)
        obtain ⟨x, data', work', heq, hl, hperm, hxle, ht', hab'⟩ :=
          IH data2 ((q - 1, upper) :: work) q q (by omega) (by omega) (le_refl _)
            (by exact ⟨by omega, by omega, ht⟩)
            (by
              intro it hm2
              rcases List.mem_cons.mp hm2 with rfl | hm3
              · exact h5'
              · exact hwork2 it hm3)
            h5''
        exact ⟨x, data', work', heq, by omega, hperm.trans hperm2, hxle, ht', hab'⟩
      · rw [if_neg hql]
        have h5'' : Above data2 (q + 1) := by
          intro i j hi hj hjlen
          have hjl : j ≤ lower := by omega
          have hBj := hBle j (by omega) hjl
          rcases Nat.lt_or_ge i upper with hiu | hiu
          · exact h5' i j hiu (by omega) hjlen
          · rcases Nat.lt_or_ge i q with hiq | hiq
            · exact hBj.trans (le_of_lt (hAlt i hiu hiq))
            · have hieq : i = q := by omega
              subst hieq
              rw [hpv]
              exact hBj
        obtain ⟨x, data', work', heq, hl, hperm, hxle, ht', hab'⟩ :=
          IH data2 ((q, upper) :: work) lower (q + 1) (by omega) (by omega)
            (by omega) (by exact ⟨rfl, hq1, ht⟩)
            (by
              intro it hm2
              rcases List.mem_cons.mp hm2 with rfl | hm3
              · exact h5'
              · exact hwork2 it hm3)
            h5''
        exact ⟨x, data', work', heq, by omega, hperm.trans hperm2, hxle, ht', hab'⟩

theorem structInv_new (input : List α) : StructInv (LazySortIterator.new input) := by
  show tiles input.length (if input.length = 0 then [] else [(input.length - 1, 0)])
  by_cases h : input.length = 0
  · rw [if_pos h, h]
    exact rfl
  · rw [if_neg h]
    show input.length - 1 + 1 = input.length ∧ 0 ≤ input.length - 1 ∧ tiles 0 []
    exact ⟨by omega, by omega, rfl⟩

theorem orderInv_new [LinearOrder α] [Inhabited α] (input : List α) :
    OrderInv (LazySortIterator.new input) := by
  intro it hm
  unfold LazySortIterator.new at hm
  simp only at hm
  by_cases h : input.length = 0
  · rw [if_pos h] at hm
    exact absurd hm (List.not_mem_nil _)
  · rw [if_neg h] at hm
    rcases List.mem_cons.mp hm with rfl | hm'
    · intro i j hi hj hjlen
      omega
    · exact absurd hm' (List.not_mem_nil _)

/-- On a structurally sound state, `next` never panics: it reports
exhaustion exactly on an empty work stack, and otherwise emits one element,
permuting away exactly that element and preserving the invariant. -/
theorem next_ok_struct [Inhabited α] (f : α → α → Ordering)
    (s : LazySortIterator α) (h : StructInv s) :
    (s.work = [] ∧ s.data = [] ∧ s.next f = .ok (none, s)) ∨
    (∃ x s', s.next f = .ok (some x, s') ∧ s'.data.length + 1 = s.data.length ∧
      List.Perm (s'.data ++ [x]) s.data ∧ StructInv s') := by
  rcases hw : s.work with _ | ⟨⟨lower, upper⟩, rest⟩
  · left
    have h0 : s.data.length = 0 := by
      have := h
      unfold StructInv at this
      rw [hw] at this
      exact this
    refine ⟨rfl, List.length_eq_zero.mp h0, ?_⟩
    unfold LazySortIterator.next
    rw [hw]
  · right
    have ht : lower + 1 = s.data.length ∧ upper ≤ lower ∧ tiles upper rest := by
      have := h
      unfold StructInv at this
      rw [hw] at this
      exact this
    obtain ⟨x, data', work', heq, hl, hperm, ht'⟩ :=
      qsort_struct f (lower - upper) s.data rest lower upper (le_refl _)
        ht.1 ht.2.1 ht.2.2
    refine ⟨x, ⟨data', work'⟩, ?_, hl, hperm, ht'⟩
    unfold LazySortIterator.next
    rw [hw]
    simp only []
    rw [heq]

/-- On a fully invariant state with the total-order comparator, `next`
additionally emits a minimum of the remaining buffer. -/
theorem next_ok_order [LinearOrder α] [Inhabited α]
    (s : LazySortIterator α) (hs : StructInv s) (ho : OrderInv s) :
    (s.work = [] ∧ s.data = [] ∧ s.next compare = .ok (none, s)) ∨
    (∃ x s', s.next compare = .ok (some x, s') ∧
      s'.data.length + 1 = s.data.length ∧
      List.Perm (s'.data ++ [x]) s.data ∧
      (∀ y ∈ s'.data, x ≤ y) ∧ StructInv s' ∧ OrderInv s') := by
  rcases hw : s.work with _ | ⟨⟨lower, upper⟩, rest⟩
  · left
    have h0 : s.data.length = 0 := by
      have := hs
      unfold StructInv at this
      rw [hw] at this
      exact this
    refine ⟨rfl, List.length_eq_zero.mp h0, ?_⟩
    unfold LazySortIterator.next
    rw [hw]
  · right
    have ht : lower + 1 = s.data.length ∧ upper ≤ lower ∧ tiles upper rest := by
      have := hs
      unfold StructInv at this
      rw [hw] at this
      exact this
    have hrest : ∀ it ∈ rest, Above s.data it.2 := by
      intro it hm
      exact ho it (by rw [hw]; exact List.mem_cons_of_mem _ hm)
    have htop : Above s.data upper := by
      exact ho (lower, upper) (by rw [hw]; exact List.mem_cons_self _ _)
    obtain ⟨x, data', work', heq, hl, hperm, hxle, ht', hab'⟩ :=
      qsort_spec (lower - upper) s.data rest lower upper (le_refl _)
        ht.1 ht.2.1 ht.2.2 hrest htop
    refine ⟨x, ⟨data', work'⟩, ?_, hl, hperm, hxle, ht', hab'⟩
    unfold LazySortIterator.next
    rw [hw]
    simp only []
    rw [heq]

/-- Draining a structurally sound state succeeds (no panic, no fuel
exhaustion with fuel above the buffer length) and emits a permutation of
the buffer, for any comparator. -/
theorem drainFuel_struct [Inhabited α] (f : α → α → Ordering) :
    ∀ (n : Nat) (s : LazySortIterator α),
      s.data.length < n → StructInv s →
      ∃ out, drainFuel f n s = .ok out ∧ List.Perm out s.data := by
  intro n
  induction n with
  | zero => intro s h; omega
  | succ n IH =>
    intro s hn hs
    rcases next_ok_struct f s hs with ⟨hw, hd, hnext⟩ | ⟨x, s', hnext, hl, hperm, hs'⟩
    · refine ⟨[], ?_, by rw [hd]⟩
      simp only [drainFuel]
      rw [hnext]
    · obtain ⟨rest, hrest, hrperm⟩ := IH s' (by omega) hs'
      refine ⟨x :: rest, ?_, ?_⟩
      · simp only [drainFuel]
        rw [hnext]
        simp only []
        rw [hrest]
      · have h1 : List.Perm (x :: rest) (x :: s'.data) := hrperm.cons x
        have h2 : List.Perm (x :: s'.data) (s'.data ++ [x]) :=
          (List.perm_append_singleton x s'.data).symm
        exact (h1.trans h2).trans hperm

/-- Draining a fully invariant state with the total-order comparator yields
a sorted permutation of the buffer. -/
theorem drainFuel_sorted [LinearOrder α] [Inhabited α] :
    ∀ (n : Nat) (s : LazySortIterator α),
      s.data.length < n → StructInv s → OrderInv s →
      ∃ out, drainFuel compare n s = .ok out ∧ List.Perm out s.data ∧
        out.Sorted (· ≤ ·) := by
  intro n
  induction n with
  | zero => intro s h; omega
  | succ n IH =>
    intro s hn hs ho
    rcases next_ok_order s hs ho with ⟨hw, hd, hnext⟩ |
      ⟨x, s', hnext, hl, hperm, hxle, hs', ho'⟩
    · refine ⟨[], ?_, by rw [hd], List.sorted_nil⟩
      simp only [drainFuel]
      rw [hnext]
    · obtain ⟨rest, hrest, hrperm, hrsort⟩ := IH s' (by omega) hs' ho'
      refine ⟨x :: rest, ?_, ?_, ?_⟩
      · simp only [drainFuel]
        rw [hnext]
        simp only []
        rw [hrest]
      · have h1 : List.Perm (x :: rest) (x :: s'.data) := hrperm.cons x
        have h2 : List.Perm (x :: s'.data) (s'.data ++ [x]) :=
          (List.perm_append_singleton x s'.data).symm
        exact (h1.trans h2).trans hperm
      · rw [List.sorted_cons]
        exact ⟨fun b hb => hxle b (hrperm.subset hb), hrsort⟩

/-- Pulling `k` elements from a structurally sound state succeeds and the
emitted elements together with the final buffer are a permutation of the
starting buffer, for any comparator. -/
theorem pullN_struct [Inhabited α] (f : α → α → Ordering) :
    ∀ (k : Nat) (s : LazySortIterator α), StructInv s →
      ∃ out s', pullN f k s = .ok (out, s') ∧
        List.Perm (out ++ s'.data) s.data ∧ StructInv s' := by
  intro k
  induction k with
  | zero =>
    intro s hs
    exact ⟨[], s, rfl, List.Perm.refl _, hs⟩
  | succ k IH =>
    intro s hs
    rcases next_ok_struct f s hs with ⟨hw, hd, hnext⟩ | ⟨x, s', hnext, hl, hperm, hs'⟩
    · refine ⟨[], s, ?_, List.Perm.refl _, hs⟩
      simp only [pullN]
      rw [hnext]
    · obtain ⟨out, s'', hpull, hperm2, hs''⟩ := IH s' hs'
      refine ⟨x :: out, s'', ?_, ?_, hs''⟩
      · simp only [pullN]
        rw [hnext]
        simp only []
        rw [hpull]
      · have h1 : List.Perm (x :: (out ++ s''.data)) (x :: s'.data) := hperm2.cons x
        have h2 : List.Perm (x :: s'.data) (s'.data ++ [x]) :=
          (List.perm_append_singleton x s'.data).symm
        exact (h1.trans h2).trans hperm

/-- The first `k` pulls deliver exactly the first `k` elements of a full
drain. -/
theorem pullN_prefix [Inhabited α] (f : α → α → Ordering) :
    ∀ (k n : Nat) (s : LazySortIterator α) (out : List α),
      drainFuel f n s = .ok out → k ≤ out.length →
      ∃ s', pullN f k s = .ok (out.take k, s') := by
  intro k
  induction k with
  | zero =>
    intro n s out hd hk
    exact ⟨s, by rw [List.take_zero]; rfl⟩
  | succ k IH =>
    intro n s out hd hk
    obtain ⟨n', rfl⟩ : ∃ n', n = n' + 1 := by
      rcases n with _ | n'
      · exact Except.noConfusion hd
      · exact ⟨n', rfl⟩
    simp only [drainFuel] at hd
    rcases hnext : s.next f with e | ⟨ox, s'⟩
    · rw [hnext] at hd
      exact Except.noConfusion hd
    · rw [hnext] at hd
      rcases ox with _ | x
      · simp only [] at hd
        have : out = [] := (Except.ok.inj hd).symm
        rw [this] at hk
        simp at hk
      · simp only [] at hd
        rcases hrest : drainFuel f n' s' with e2 | rest
        · rw [hrest] at hd
          exact Except.noConfusion hd
        · rw [hrest] at hd
          have hout : out = x :: rest := (Except.ok.inj hd).symm
          subst hout
          obtain ⟨t, hpull⟩ := IH n' s' rest hrest (by simpa using hk)
          refine ⟨t, ?_⟩
          simp only [pullN]
          rw [hnext]
          simp only []
          rw [hpull, List.take_succ_cons]

/-- The structural invariant is preserved along every reachable state. -/
theorem reach_struct [Inhabited α] (f : α → α → Ordering)
    {s t : LazySortIterator α} (h : Reach f s t) (hs : StructInv s) :
    StructInv t := by
  induction h with
  | refl => exact hs
  | step h1 h2 IH =>
    rename_i t0 u0 x0
    rcases next_ok_struct f _ IH with ⟨hw, hd, hnext⟩ | ⟨x', s', hnext, hl, hperm, hs'⟩
    · rw [hnext] at h2
      have h3 := Except.ok.inj h2
      exact Option.noConfusion (congrArg Prod.fst h3)
    · rw [hnext] at h2
      have h3 := Except.ok.inj h2
      have h4 : s' = u0 := congrArg Prod.snd h3
      exact h4 ▸ hs'

/-- Both engine invariants are preserved along every state reachable with
the total-order comparator. -/
theorem reach_inv [LinearOrder α] [Inhabited α]
    {s t : LazySortIterator α} (h : Reach compare s t)
    (hs : StructInv s) (ho : OrderInv s) : StructInv t ∧ OrderInv t := by
  induction h with
  | refl => exact ⟨hs, ho⟩
  | step h1 h2 IH =>
    rename_i t0 u0 x0
    rcases next_ok_order _ IH.1 IH.2 with ⟨hw, hd, hnext⟩ |
      ⟨x', s', hnext, hl, hperm, hxle, hs', ho'⟩
    · rw [hnext] at h2
      have h3 := Except.ok.inj h2
      exact Option.noConfusion (congrArg Prod.fst h3)
    · rw [hnext] at h2
      have h3 := Except.ok.inj h2
      have h4 : s' = u0 := congrArg Prod.snd h3
      exact ⟨h4 ▸ hs', h4 ▸ ho'⟩

/-- An emitting `next` call shrinks the buffer by exactly one element. -/
theorem next_some_length [Inhabited α] (f : α → α → Ordering)
    (s s' : LazySortIterator α) (x : α)
    (h : s.next f = .ok (some x, s')) : s'.data.length + 1 = s.data.length := by
  unfold LazySortIterator.next at h
  rcases hw : s.work with _ | ⟨⟨lower, upper⟩, rest⟩
  · rw [hw] at h
    simp only [] at h
    have h3 := Except.ok.inj h
    exact Option.noConfusion (congrArg Prod.fst h3)
  · rw [hw] at h
    simp only [] at h
    rcases hq : qsort f s.data rest lower upper with e | ⟨y, data', work'⟩
    · rw [hq] at h
      exact Except.noConfusion h
    · rw [hq] at h
      simp only [] at h
      have h3 := Except.ok.inj h
      have h4 : (⟨data', work'⟩ : LazySortIterator α) = s' := congrArg Prod.snd h3
      have h5 := qsortF_ok_length f (lower - upper + 1) s.data rest lower upper
        y data' work' hq
      rw [← h4]
      exact h5

/-- **C1**: for every finite input sequence of totally ordered elements,
fully draining the lazy iterator produced by `sorted` (which instantiates
the engine with `Ord::cmp`, i.e. `compare`) yields a sequence that is
sorted in ascending order and is a permutation of the input; in particular
input `[9,7,1,1,6,3,1,4,22]` drains to `[1,1,1,3,4,6,7,9,22]`. -/
theorem claim1_total_order_drain [LinearOrder α] [Inhabited α] (input : List α) :
    (∃ out, drain compare (LazySortIterator.new input) = .ok out ∧
      out.Sorted (· ≤ ·) ∧ List.Perm out input) ∧
    drain compare (LazySortIterator.new ([9, 7, 1, 1, 6, 3, 1, 4, 22] : List Int)) =
      .ok [1, 1, 1, 3, 4, 6, 7, 9, 22] := by
  constructor
  · obtain ⟨out, hok, hperm, hsort⟩ :=
      drainFuel_sorted (input.length + 1) (LazySortIterator.new input)
        (by simp [LazySortIterator.new]) (structInv_new input) (orderInv_new input)
    exact ⟨out, hok, hsort, hperm⟩
  · rfl

/-- **C2** (code evaluation at the failing input): with `first = true` the
incomparable value (`none`, playing NaN) drains to the *back* on input
`[NaN, 1.0]`, and with `first = false` it drains to the *front* — the
opposite of the claimed placement in both directions.  The cause:
`partial_cmp_first` returns `Less` for *both* argument orders of an
incomparable pair (and `partial_cmp_last` returns `Greater` for both), so
whether a NaN is pushed to the front or the back depends on which element
happens to be the pivot. -/
theorem claim2_nan_placement_fails :
    sortedPDrain true [none, some 1] = .ok [some 1, none] ∧
    sortedPDrain false [none, some 1] = .ok [none, some 1] := by
  exact ⟨rfl, rfl⟩

/-- **C3**: for every finite input under a strict total order and every
`k` not exceeding the input length, the first `k` elements pulled from the
lazy iterator equal the first `k` elements of the full reference ascending
sort of the input, and pulling only `k` elements then stopping causes no
panic (the result is `.ok`, never `.error`). -/
theorem claim3_prefix_pulls [LinearOrder α] [Inhabited α] (input : List α)
    (k : Nat) (hk : k ≤ input.length) :
    ∃ s', pullN compare k (LazySortIterator.new input) =
      .ok ((List.insertionSort (· ≤ ·) input).take k, s') := by
  obtain ⟨out, hok, hperm, hsort⟩ :=
    drainFuel_sorted (input.length + 1) (LazySortIterator.new input)
      (by simp [LazySortIterator.new]) (structInv_new input) (orderInv_new input)
  have hperm2 : List.Perm out (List.insertionSort (· ≤ ·) input) :=
    hperm.trans (List.perm_insertionSort (· ≤ ·) input).symm
  have hout : out = List.insertionSort (· ≤ ·) input :=
    List.eq_of_perm_of_sorted hperm2 hsort (List.sorted_insertionSort (· ≤ ·) input)
  have hlen : out.length = input.length := hperm.length_eq
  obtain ⟨s', hs'⟩ := pullN_prefix compare k (input.length + 1)
    (LazySortIterator.new input) out hok (by omega)
  exact ⟨s', by rw [← hout, hs']⟩

theorem claim3_witness :
    3 ≤ ([9, 7, 1, 1, 6, 3, 1, 4, 22] : List Int).length ∧
    ∃ s', pullN compare 3 (LazySortIterator.new ([9, 7, 1, 1, 6, 3, 1, 4, 22] : List Int)) =
      .ok ((List.insertionSort (· ≤ ·) ([9, 7, 1, 1, 6, 3, 1, 4, 22] : List Int)).take 3, s') :=
  ⟨by decide, claim3_prefix_pulls [9, 7, 1, 1, 6, 3, 1, 4, 22] 3 (by decide)⟩

/-- **C4**: for every range `[upper, lower]` of valid buffer indices with
`upper ≤ p ≤ lower` and the strict-total-order comparator `compare`,
`partition` succeeds and returns a final pivot position `q ∈ [upper, lower]`
such that afterwards every element at an index in `[upper, q)` compares
greater than the pivot element, every element at an index in `(q, lower]`
compares less-than-or-equal to the pivot element, the original pivot
element sits at index `q`, and indices outside `[upper, lower]` are
unchanged (moreover the whole buffer is only permuted). -/
theorem claim4_partition_post [LinearOrder α] [Inhabited α] (data : List α)
    (lower upper p : Nat)
    (h1 : upper ≤ p) (h2 : p ≤ lower) (h3 : lower < data.length) :
    ∃ q data',
      partition compare data lower upper p = .ok (q, data') ∧
      upper ≤ q ∧ q ≤ lower ∧
      nth data' q = nth data p ∧
      (∀ i, upper ≤ i → i < q → nth data p < nth data' i) ∧
      (∀ i, q < i → i ≤ lower → nth data' i ≤ nth data p) ∧
      (∀ i, i < upper ∨ lower < i → nth data' i = nth data i) ∧
      List.Perm data' data := by
  obtain ⟨q, data', heq, hq1, hq2, hlen, hperm, hout, hpv, hA, hB⟩ :=
    partition_spec compare data lower upper p (h1.trans h2) h2 h1 h3
  refine ⟨q, data', heq, hq1, hq2, hpv, ?_, ?_, hout, hperm⟩
  · intro i hi1 hi2
    exact compare_gt_iff_gt.mp (hA i hi1 hi2)
  · intro i hi1 hi2
    exact compare_le_iff_le.mp (hB i hi1 hi2)

theorem claim4_witness :
    (0 ≤ 1 ∧ 1 ≤ 2 ∧ 2 < ([5, 1, 4] : List Int).length) ∧
    ∃ q data',
      partition compare ([5, 1, 4] : List Int) 2 0 1 = .ok (q, data') ∧
      0 ≤ q ∧ q ≤ 2 ∧
      nth data' q = nth ([5, 1, 4] : List Int) 1 ∧
      (∀ i, 0 ≤ i → i < q → nth ([5, 1, 4] : List Int) 1 < nth data' i) ∧
      (∀ i, q < i → i ≤ 2 → nth data' i ≤ nth ([5, 1, 4] : List Int) 1) ∧
      (∀ i, i < 0 ∨ 2 < i → nth data' i = nth ([5, 1, 4] : List Int) i) ∧
      List.Perm data' ([5, 1, 4] : List Int) :=
  ⟨⟨by decide, by decide, by decide⟩,
    claim4_partition_post [5, 1, 4] 2 0 1 (by decide) (by decide) (by decide)⟩

/-- **C5**: every produce-next call terminates.  The recursion of `qsort`
(modelled by the fuel of `qsortF`) completes within `lower - upper` nested
partition steps: any fuel above `lower - upper` yields the same result and
never the fuel-exhaustion marker, each recursive step having strictly
shrunk the active range.  A successful call emits exactly one element, and
on every reachable non-exhausted engine state `next` does emit exactly one
element. -/
theorem claim5_next_terminates [Inhabited α] (f : α → α → Ordering)
    (fuel : Nat) (data : List α) (work : List (Nat × Nat)) (lower upper : Nat)
    (hf : lower - upper < fuel) :
    (qsortF f fuel data work lower upper = qsort f data work lower upper ∧
     qsortF f fuel data work lower upper ≠ .error .outOfFuel ∧
     (∀ x data' work', qsortF f fuel data work lower upper = .ok (x, data', work') →
       data'.length + 1 = data.length)) ∧
    (∀ (input : List α) (s : LazySortIterator α),
      Reach f (LazySortIterator.new input) s → s.work ≠ [] →
      ∃ x s', s.next f = .ok (some x, s') ∧ s'.data.length + 1 = s.data.length) := by
  refine ⟨⟨?_, qsortF_no_fuel f fuel data work lower upper hf,
    fun x data' work' h => qsortF_ok_length f fuel data work lower upper x data' work' h⟩,
    ?_⟩
  · exact qsortF_fuel_eq f (lower - upper + 1) fuel data work lower upper
      (by omega) (by omega)
  · intro input s hreach hw
    have hs := reach_struct f hreach (structInv_new input)
    rcases next_ok_struct f s hs with ⟨hw', _, _⟩ | ⟨x, s', hnext, hl, _, _⟩
    · exact absurd hw' hw
    · exact ⟨x, s', hnext, hl⟩

theorem claim5_witness :
    (2 - 0 < 3) ∧
    ((qsortF compare 3 ([3, 1, 2] : List Int) [] 2 0 =
        qsort compare ([3, 1, 2] : List Int) [] 2 0 ∧
      qsortF compare 3 ([3, 1, 2] : List Int) [] 2 0 ≠ .error .outOfFuel ∧
      (∀ x data' work', qsortF compare 3 ([3, 1, 2] : List Int) [] 2 0 =
          .ok (x, data', work') →
        data'.length + 1 = ([3, 1, 2] : List Int).length)) ∧
     (∀ (input : List Int) (s : LazySortIterator Int),
       Reach compare (LazySortIterator.new input) s → s.work ≠ [] →
       ∃ x s', s.next compare = .ok (some x, s') ∧
         s'.data.length + 1 = s.data.length)) :=
  ⟨by decide, claim5_next_terminates compare 3 [3, 1, 2] [] 2 0 (by decide)⟩

/-- **C6**: on every engine state reachable (with the strict-total-order
comparator `compare`) from construction on any finite input, the tail
assertion of `qsort` (`assert!(lower == self.data.len() - 1)`, together
with the `pop().expect(..)`) never fires: `next` never returns the
`tailAssert` panic. -/
theorem claim6_tail_assert_safe [LinearOrder α] [Inhabited α] (input : List α)
    (s : LazySortIterator α) (h : Reach compare (LazySortIterator.new input) s) :
    s.next compare ≠ .error .tailAssert := by
  have hs := reach_struct compare h (structInv_new input)
  rcases next_ok_struct compare s hs with ⟨_, _, hnext⟩ | ⟨x, s', hnext, _, _, _⟩ <;>
    simp [hnext]

theorem claim6_witness :
    Reach compare (LazySortIterator.new ([2, 1] : List Int))
      (LazySortIterator.new ([2, 1] : List Int)) ∧
    (LazySortIterator.new ([2, 1] : List Int)).next compare ≠
      .error .tailAssert :=
  ⟨Reach.refl _, claim6_tail_assert_safe [2, 1] _ (Reach.refl _)⟩

/-- **C7**: on every reachable engine state (any comparator, any finite
input), every work item `(lower, upper)` on the stack satisfies
`lower ≥ upper`, and the `assert!(lower >= upper)` of `partition` never
fires: `next` never returns the `lowerLtUpper` panic. -/
theorem claim7_work_items_wellformed [Inhabited α] (f : α → α → Ordering)
    (input : List α) (s : LazySortIterator α)
    (h : Reach f (LazySortIterator.new input) s) :
    (∀ it ∈ s.work, it.2 ≤ it.1) ∧ s.next f ≠ .error .lowerLtUpper := by
  have hs := reach_struct f h (structInv_new input)
  constructor
  · intro it hm
    exact (tiles_mem_bounds s.data.length s.work hs it hm).2
  · rcases next_ok_struct f s hs with ⟨_, _, hnext⟩ | ⟨x, s', hnext, _, _, _⟩ <;>
      simp [hnext]

theorem claim7_witness :
    Reach compare (LazySortIterator.new ([2, 1] : List Int))
      (LazySortIterator.new ([2, 1] : List Int)) ∧
    ((∀ it ∈ (LazySortIterator.new ([2, 1] : List Int)).work, it.2 ≤ it.1) ∧
     (LazySortIterator.new ([2, 1] : List Int)).next compare ≠
       .error .lowerLtUpper) :=
  ⟨Reach.refl _, claim7_work_items_wellformed compare [2, 1] _ (Reach.refl _)⟩

/-- **C8**: `size_hint` returns the exact pair `(n, Some(n))` where `n` is
the buffer length, which equals the number of elements a full drain still
emits; it equals the input length at construction, decreases by exactly one
with each element returned by `next`, and for an empty input it is
`(0, Some(0))` with `next` immediately returning `None`. -/
theorem claim8_size_hint_exact [Inhabited α] (f : α → α → Ordering)
    (input : List α) (s : LazySortIterator α)
    (h : Reach f (LazySortIterator.new input) s) :
    sizeHint s = (s.data.length, some s.data.length) ∧
    (∃ out, drain f s = .ok out ∧ out.length = s.data.length) ∧
    sizeHint (LazySortIterator.new input) = (input.length, some input.length) ∧
    (∀ x s', s.next f = .ok (some x, s') →
      sizeHint s' = (s.data.length - 1, some (s.data.length - 1))) ∧
    (input = [] → sizeHint (LazySortIterator.new input) = (0, some 0) ∧
      (LazySortIterator.new input).next f = .ok (none, LazySortIterator.new input)) := by
  have hs := reach_struct f h (structInv_new input)
  refine ⟨rfl, ?_, rfl, ?_, ?_⟩
  · obtain ⟨out, hok, hperm⟩ := drainFuel_struct f (s.data.length + 1) s (by omega) hs
    exact ⟨out, hok, hperm.length_eq⟩
  · intro x s' hnext
    have h1 := next_some_length f s s' x hnext
    have h2 : s'.data.length = s.data.length - 1 := by omega
    show (s'.data.length, some s'.data.length) = _
    rw [h2]
  · intro he
    subst he
    exact ⟨rfl, rfl⟩

theorem claim8_witness :
    Reach compare (LazySortIterator.new ([2, 1] : List Int))
      (LazySortIterator.new ([2, 1] : List Int)) ∧
    (sizeHint (LazySortIterator.new ([2, 1] : List Int)) =
      ((LazySortIterator.new ([2, 1] : List Int)).data.length,
        some (LazySortIterator.new ([2, 1] : List Int)).data.length) ∧
     (∃ out, drain compare (LazySortIterator.new ([2, 1] : List Int)) = .ok out ∧
       out.length = (LazySortIterator.new ([2, 1] : List Int)).data.length) ∧
     sizeHint (LazySortIterator.new ([2, 1] : List Int)) =
       (([2, 1] : List Int).length, some ([2, 1] : List Int).length) ∧
     (∀ x s', (LazySortIterator.new ([2, 1] : List Int)).next compare =
         .ok (some x, s') →
       sizeHint s' = ((LazySortIterator.new ([2, 1] : List Int)).data.length - 1,
         some ((LazySortIterator.new ([2, 1] : List Int)).data.length - 1))) ∧
     (([2, 1] : List Int) = [] →
       sizeHint (LazySortIterator.new ([2, 1] : List Int)) = (0, some 0) ∧
       (LazySortIterator.new ([2, 1] : List Int)).next compare =
         .ok (none, LazySortIterator.new ([2, 1] : List Int)))) :=
  ⟨Reach.refl _, claim8_size_hint_exact compare [2, 1] _ (Reach.refl _)⟩

/-- **C9**: the pivot index chosen before partitioning is
`upper + (lower - upper) / 2` with integer division, which for any
well-formed range `upper ≤ lower` is the midpoint `(upper + lower) / 2`
(biased toward `upper` for odd range lengths) and lies inside the range. -/
theorem claim9_pivot_midpoint (lower upper : Nat) :
    pivot lower upper = upper + (lower - upper) / 2 ∧
    (upper ≤ lower →
      pivot lower upper = (upper + lower) / 2 ∧
      upper ≤ pivot lower upper ∧ pivot lower upper ≤ lower) := by
  refine ⟨rfl, fun h => ⟨?_, (pivot_bounds lower upper h).1,
    (pivot_bounds lower upper h).2⟩⟩
  unfold pivot
  omega

theorem claim9_witness :
    (3 ≤ 8) ∧
    (pivot 8 3 = (3 + 8) / 2 ∧ 3 ≤ pivot 8 3 ∧ pivot 8 3 ≤ 8) :=
  ⟨by decide, (claim9_pivot_midpoint 8 3).2 (by decide)⟩

/-- **C10**: for any comparator and any finite input, after any number of
`next` calls the elements emitted so far together with the elements still
in the buffer form a permutation (multiset equality) of the input: no
element is duplicated or lost. -/
theorem claim10_multiset_conserved [Inhabited α] (f : α → α → Ordering)
    (input : List α) (k : Nat) :
    ∃ emitted s', pullN f k (LazySortIterator.new input) = .ok (emitted, s') ∧
      List.Perm (emitted ++ s'.data) input := by
  obtain ⟨out, s', hok, hperm, _⟩ := pullN_struct f k (LazySortIterator.new input)
    (structInv_new input)
  exact ⟨out, s', hok, hperm⟩
